import Mathlib

/-!
Verification of the sorm core: the row-to-object decoder (`ScanStruct`,
`ScanStructSlice`, `integerConverter`) and the per-session bounded LRU cache
(`modelLruCache` with `Get`/`Put`/`Del`/`resetCapacity`/`Clear`) together with
the composite cache-key builder (`buildKey`).

Embedding conventions:
* Go machine integers are modelled as `Int`/`Nat`; where Go converts between
  `int64` and `uint64` the reinterpretation is made explicit with `% 2 ^ 64`.
* Go's `map[string]*element` is modelled as an association list
  (`List (String × α)`); Go maps are unordered, and all reasoning goes through
  `mapLookup`/`mapErase`/`mapSet` only.  The `container/list` recency list is
  modelled as a `List String` of keys, front = least recently used; a list node
  is identified by its key, which is justified because in every reachable cache
  state the keys on the list are pairwise distinct (proved below).
* Fallible Go functions returning `error` are modelled with `Except String` or
  an `Option String` component; error values carry the Go error message.
* `strconv.FormatFloat` (floating-point formatting) is outside the embedding:
  the `IndexVal.floatV` constructor carries the already-formatted decimal
  string, which no theorem below inspects.
-/

/-! ## Cache key builder (`Dao.buildKey`, src/cache.go lines 33-71) -/

/-- The key delimiter: the backquote character, byte 0x60, written by
`buildStr.WriteString` before every index value. -/
def delim : Char := '\x60'

/-- The one-character delimiter string. -/
def delimS : String := String.mk [delim]

/-- Dynamic kinds of an index value passed to `buildKey`
(the `switch m := v.(type)` at src/cache.go lines 39-65).

* `intV` covers the case `int, int64, uint, uint64, int32, int16, int8,
  uint32, uint16, uint8`: `fmt.Sprintf` with verb `%d` prints the mathematical
  value of any of these widths in decimal, so they are carried as one `Int`.
* `floatV` covers `float32`/`float64`; the payload is the string produced by
  `strconv.FormatFloat(float64(m), 102, -1, 64)`, whose computation is outside
  the embedding (no theorem depends on it).
* `bytesV` covers `[]byte`; the payload is the byte content, carried as the
  text it spells (the builder writes the raw bytes either way).
* `valuerOk`/`valuerErr` cover `driver.Valuer`: a provider whose `Value()`
  call succeeds with the wrapped value (re-dispatched through the same switch
  via `goto assert`) or fails with the given message (wrapped by
  `NewError(ModelRuntimeError, err.Error())`, which keeps the message).
* `otherV` is any unsupported dynamic kind. -/
inductive IndexVal where
  | intV : Int → IndexVal
  | floatV : String → IndexVal
  | strV : String → IndexVal
  | bytesV : String → IndexVal
  | valuerOk : IndexVal → IndexVal
  | valuerErr : String → IndexVal
  | otherV : IndexVal
  deriving DecidableEq

/-- The contribution of one index value to the key: the body of the
`switch` at src/cache.go lines 39-65.  Each successful case writes the
delimiter followed by the value's text; `strV ""` and unsupported kinds
produce the `NewError(ModelRuntimeError, ...)` messages of the source. -/
def renderVal : IndexVal → Except String String
  | IndexVal.intV m => Except.ok (delimS ++ toString m)
  | IndexVal.floatV s => Except.ok (delimS ++ s)
  | IndexVal.strV m =>
      if m = "" then Except.error "the index key can not be empty string"
      else Except.ok (delimS ++ m)
  | IndexVal.bytesV m => Except.ok (delimS ++ m)
  | IndexVal.valuerOk v => renderVal v
  | IndexVal.valuerErr e => Except.error e
  | IndexVal.otherV => Except.error "not support index key"

/-- The loop of `buildKey`: fold the index values over the string builder
(whose current content is `acc`), aborting on the first error
(src/cache.go lines 37-69, `if err != nil { return "", err }`). -/
def buildKeyAux (acc : String) : List IndexVal → Except String String
  | [] => Except.ok acc
  | v :: rest =>
      match renderVal v with
      | Except.ok s => buildKeyAux (acc ++ s) rest
      | Except.error e => Except.error e

/-- `Dao.buildKey` (src/cache.go lines 33-71).  The builder starts from the
table name (`d.tableName`, passed here explicitly) and appends the rendering
of each index value in order; any failure aborts the whole key build. -/
def buildKey (tableName : String) (indexes : List IndexVal) : Except String String :=
  buildKeyAux tableName indexes

/-- The delimited concatenation of character-list segments: each segment is
prefixed by `delim` and the results are concatenated.  This is the shape of
the key suffix produced by `buildKey` on string index values. -/
def delimChunks (xs : List (List Char)) : List Char :=
  (xs.map (fun s => delim :: s)).flatten

/-! ## Bounded LRU cache (`modelLruCache`, src/cache.go lines 76-174) -/

/-- Association-list lookup, modelling `lru.elements[key]` reads. -/
def mapLookup {α : Type} (m : List (String × α)) (k : String) : Option α :=
  (m.find? (fun p => p.1 == k)).map (fun p => p.2)

/-- Association-list delete, modelling `delete(lru.elements, key)`. -/
def mapErase {α : Type} (m : List (String × α)) (k : String) : List (String × α) :=
  m.filter (fun p => p.1 != k)

/-- Association-list update, modelling `lru.elements[key] = ...`. -/
def mapSet {α : Type} (m : List (String × α)) (k : String) (v : α) : List (String × α) :=
  (k, v) :: mapErase m k

/-- The keys of an association list. -/
def mapKeys {α : Type} (m : List (String × α)) : List String :=
  m.map Prod.fst

/-- The cache state (src/cache.go lines 82-88).  `elements` is the lookup map
(the `element.model` payload; the `element.time` field is written in
`addElement` but never read, so it is not modelled), `order` is the
`container/list` recency list of keys with the front first, and
`capacity`/`used` are the two Go `int` counters.  The mutex only serialises
the operations and has no sequential content. -/
structure modelLruCache (α : Type) where
  elements : List (String × α)
  order : List String
  capacity : Int
  used : Int

/-- The default capacity installed by `Clear`.  Modelled from the spec: the
constant `daoModelLruCacheCapacity` is declared outside the two source files;
the spec only calls it "a fixed default capacity", and no theorem depends on
its value. -/
def daoModelLruCacheCapacity : Int := 100

/-- `newDaoLru` (src/cache.go lines 90-97). -/
def newDaoLru {α : Type} (capacity : Int) : modelLruCache α :=
  ⟨[], [], capacity, 0⟩

/-- Move the recency-list node holding `key` to the back
(`lru.list.MoveToBack(element.listElem)`); the node is identified by its key,
which is unique on the list in every reachable state. -/
def moveToBack (o : List String) (key : String) : List String :=
  o.erase key ++ [key]

/-- `modelLruCache.addElement` (src/cache.go lines 158-162). -/
def modelLruCache.addElement {α : Type} (lru : modelLruCache α) (key : String) (model : α) :
    modelLruCache α :=
  { lru with
      used := lru.used + 1
      order := lru.order ++ [key]
      elements := mapSet lru.elements key model }

/-- One iteration of the loop body of `delListFrontElement`
(src/cache.go lines 166-172): read the front node's key and, if it is in the
map, unlink the node, delete the key, and decrement `used`.  When the list is
empty the source would dereference a nil `Front()`; that situation is
unreachable whenever the loop actually runs from an invariant-satisfying
state, and is modelled as a no-op. -/
def delFrontStep {α : Type} (lru : modelLruCache α) : modelLruCache α :=
  match lru.order with
  | [] => lru
  | key :: rest =>
      match mapLookup lru.elements key with
      | some _ =>
          { lru with
              order := rest
              elements := mapErase lru.elements key
              used := lru.used - 1 }
      | none => lru

/-- Iterate `delFrontStep` a fixed number of times. -/
def iterSteps {α : Type} : Nat → modelLruCache α → modelLruCache α
  | 0, s => s
  | n + 1, s => iterSteps n (delFrontStep s)

/-- `modelLruCache.delListFrontElement` (src/cache.go lines 164-174).  The
loop `for used := lru.used; used > lru.capacity; used--` runs a number of
iterations fixed up front: the copy `used` is decremented every iteration and
`lru.capacity` does not change, so the body executes
`max(lru.used - lru.capacity, 0)` times. -/
def modelLruCache.delListFrontElement {α : Type} (lru : modelLruCache α) : modelLruCache α :=
  iterSteps (lru.used - lru.capacity).toNat lru

/-- `modelLruCache.resetCapacity` (src/cache.go lines 99-105). -/
def modelLruCache.resetCapacity {α : Type} (lru : modelLruCache α) (capacity : Int) :
    modelLruCache α :=
  modelLruCache.delListFrontElement { lru with capacity := capacity }

/-- `modelLruCache.Clear` (src/cache.go lines 107-114). -/
def modelLruCache.Clear {α : Type} (_lru : modelLruCache α) : modelLruCache α :=
  ⟨[], [], daoModelLruCacheCapacity, 0⟩

/-- `modelLruCache.Get` (src/cache.go lines 116-126).  Returns the cached
model (`none` models the `ModelNotFoundError` result) together with the state
after the recency update. -/
def modelLruCache.Get {α : Type} (lru : modelLruCache α) (key : String) :
    Option α × modelLruCache α :=
  if 0 < lru.used then
    match mapLookup lru.elements key with
    | some e => (some e, { lru with order := moveToBack lru.order key })
    | none => (none, lru)
  else (none, lru)

/-- `modelLruCache.Put` (src/cache.go lines 128-144).  A capacity below 1 is a
no-op; an existing key is overwritten in place (keeping its list node, which
is moved to the back); a fresh key is appended and the cache then evicts from
the front while over capacity. -/
def modelLruCache.Put {α : Type} (lru : modelLruCache α) (key : String) (model : α) :
    modelLruCache α :=
  if lru.capacity < 1 then lru
  else
    match mapLookup lru.elements key with
    | some _ =>
        { lru with
            elements := mapSet lru.elements key model
            order := moveToBack lru.order key }
    | none => (lru.addElement key model).delListFrontElement

/-- `modelLruCache.Del` (src/cache.go lines 146-156). -/
def modelLruCache.Del {α : Type} (lru : modelLruCache α) (key : String) : modelLruCache α :=
  match mapLookup lru.elements key with
  | some _ =>
      { lru with
          order := lru.order.erase key
          elements := mapErase lru.elements key
          used := lru.used - 1 }
  | none => lru

/-- Insert a whole list of key/model pairs with `Put`, first pair first. -/
def putAll {α : Type} (kvs : List (String × α)) (s : modelLruCache α) : modelLruCache α :=
  kvs.foldl (fun t kv => t.Put kv.1 kv.2) s

/-- The capacity-independent part of the cache invariant: the recency list
has pairwise distinct keys, the keys of the lookup map are a permutation of
the recency list (so the two sides are in one-to-one correspondence), and
`used` counts them. -/
def CoreInv {α : Type} (s : modelLruCache α) : Prop :=
  s.order.Nodup ∧ (mapKeys s.elements).Perm s.order ∧
    s.used = (s.order.length : Int)

/-- The structural invariant of the cache: `CoreInv` plus the bound that the
cache is never over capacity. -/
def CacheInv {α : Type} (s : modelLruCache α) : Prop :=
  CoreInv s ∧ s.used ≤ max s.capacity 0

/-- Cache states reachable from a fresh cache by the five public operations. -/
inductive Reachable {α : Type} : modelLruCache α → Prop where
  | base (capacity : Int) : Reachable (newDaoLru capacity)
  | get (s : modelLruCache α) (key : String) : Reachable s → Reachable (s.Get key).2
  | put (s : modelLruCache α) (key : String) (v : α) : Reachable s → Reachable (s.Put key v)
  | del (s : modelLruCache α) (key : String) : Reachable s → Reachable (s.Del key)
  | reset (s : modelLruCache α) (c : Int) : Reachable s → Reachable (s.resetCapacity c)
  | clear (s : modelLruCache α) : Reachable s → Reachable s.Clear

/-! ## Decoder (src/unnamed/part_000) -/

/-- The scalar value stored in a destination struct field.  Destination
widths are collapsed to 64 bits (`reflect.Value.SetInt`/`SetUint` on a
narrower field truncates, but every claim below concerns 64-bit, boolean or
string destinations).  `fFloat` carries the exact pre-rounding integer handed
to `SetFloat` (the `float64` rounding is outside the embedding and no theorem
inspects it).  `fOther` stands for any destination kind with no conversion
rule (struct, slice, ...), which the converters reject with
`ErrNotSupportStructField`. -/
inductive FieldVal where
  | fInt : Int → FieldVal
  | fUint : Nat → FieldVal
  | fBool : Bool → FieldVal
  | fString : String → FieldVal
  | fFloat : Int → FieldVal
  | fOther : FieldVal
  deriving DecidableEq

/-- An integer-family source value after the width-normalisation switch of
`integerConverter` (lines 175-196): every signed width is converted exactly
to `int64` and every unsigned width exactly to `uint64`, so only the two
normalised forms remain. -/
inductive IntVal where
  | i64 : Int → IntVal
  | u64 : Nat → IntVal
  deriving DecidableEq

/-- Go's `int64(u)` on a `uint64`: reinterpretation modulo `2 ^ 64`. -/
def toInt64 (n : Nat) : Int :=
  if n % 2 ^ 64 < 2 ^ 63 then ((n % 2 ^ 64 : Nat) : Int)
  else ((n % 2 ^ 64 : Nat) : Int) - 2 ^ 64

/-- Go's `uint64(i)` on an `int64`: reinterpretation modulo `2 ^ 64`. -/
def toUint64 (i : Int) : Nat :=
  (i % 2 ^ 64).toNat

/-- The message of the panic raised by a failing interface type assertion
(`dataValConverted.(uint64)` / `dataValConverted.(int64)` when the `unsigned`
flag disagrees with the dynamic value).  `scan` always passes a coherent
flag, so this case is unreachable from the modelled call sites. -/
def assertFailMsg : String := "interface conversion panic"

/-- `integerConverter` (src/unnamed/part_000 lines 173-231) after the
width-normalisation switch.  Dispatches on the destination kind in source
order: int series, uint series, bool (`> 0` in the value's own signedness),
string (base-10 formatting), float, otherwise `ErrNotSupportStructField`. -/
def integerConverter (targetValueField : FieldVal) (dataVal : IntVal) (unsigned : Bool) :
    Except String FieldVal :=
  match targetValueField with
  | FieldVal.fInt _ =>
      if unsigned then
        match dataVal with
        | IntVal.u64 u => Except.ok (FieldVal.fInt (toInt64 u))
        | IntVal.i64 _ => Except.error assertFailMsg
      else
        match dataVal with
        | IntVal.i64 i => Except.ok (FieldVal.fInt i)
        | IntVal.u64 _ => Except.error assertFailMsg
  | FieldVal.fUint _ =>
      if unsigned then
        match dataVal with
        | IntVal.u64 u => Except.ok (FieldVal.fUint u)
        | IntVal.i64 _ => Except.error assertFailMsg
      else
        match dataVal with
        | IntVal.i64 i => Except.ok (FieldVal.fUint (toUint64 i))
        | IntVal.u64 _ => Except.error assertFailMsg
  | FieldVal.fBool _ =>
      if unsigned then
        match dataVal with
        | IntVal.u64 u => Except.ok (FieldVal.fBool (decide (0 < u)))
        | IntVal.i64 _ => Except.error assertFailMsg
      else
        match dataVal with
        | IntVal.i64 i => Except.ok (FieldVal.fBool (decide (0 < i)))
        | IntVal.u64 _ => Except.error assertFailMsg
  | FieldVal.fString _ =>
      if unsigned then
        match dataVal with
        | IntVal.u64 u => Except.ok (FieldVal.fString (toString u))
        | IntVal.i64 _ => Except.error assertFailMsg
      else
        match dataVal with
        | IntVal.i64 i => Except.ok (FieldVal.fString (toString i))
        | IntVal.u64 _ => Except.error assertFailMsg
  | FieldVal.fFloat _ =>
      if unsigned then
        match dataVal with
        | IntVal.u64 u => Except.ok (FieldVal.fFloat (u : Int))
        | IntVal.i64 _ => Except.error assertFailMsg
      else
        match dataVal with
        | IntVal.i64 i => Except.ok (FieldVal.fFloat i)
        | IntVal.u64 _ => Except.error assertFailMsg
  | FieldVal.fOther => Except.error "struct field not support"

/-- First index of the byte `c`, modelling `strings.IndexByte` (with `none`
for the -1 result). -/
def indexByte (l : List Char) (c : Char) : Option Nat :=
  match l with
  | [] => none
  | a :: rest => if a = c then some 0 else (indexByte rest c).map (fun i => i + 1)

/-- The tag-value to lookup-name computation of `ScanStruct`
(src/unnamed/part_000 lines 90-96): at the first comma, a `pk` first segment
keeps the remainder after the comma, any other first segment keeps the part
before the comma. -/
def tagLookupNameL (tag : List Char) : List Char :=
  match indexByte tag ',' with
  | none => tag
  | some idx => if tag.take idx = ['p', 'k'] then tag.drop (idx + 1) else tag.take idx

/-- String-level wrapper of `tagLookupNameL`. -/
def tagLookupName (tag : String) : String :=
  String.mk (tagLookupNameL tag.data)

/-- A struct field of the decode target, as discovered by reflection:
its name, the result of `Tag.Lookup(tagName)`, its settability, an optional
`sql.Scanner` capability (the capability mutates the field through its own
`Scan` method, modelled as a function from the raw value to the new field
value), and its current value.  The `TypeIfe`/`BindModel` capability only
installs a back-reference inside the field's model object, which has no
observable effect on the state modelled here; the pointer-to-scalar
allocation branch is likewise not exercised by any claim. -/
structure StructField (α : Type) where
  name : String
  tag : Option String
  canSet : Bool
  scanner : Option (α → Except String FieldVal)
  value : FieldVal

/-- The `ScanError` wrapper `newScanError` (src/unnamed/part_000 lines 27-37),
carrying the struct and field names; the two `reflect.Type` diagnostics are
not modelled. -/
def newScanError (structName fieldName e : String) : String :=
  "[scan]: " ++ structName ++ "." ++ fieldName ++ ": " ++ e

/-- The per-field body of the `ScanStruct` loop (src/unnamed/part_000 lines
87-128), parametrised by the scalar conversion function `scanFn` (the source's
`scan`, whose string/byte parsing is not needed by any claim).  A field whose
tag is absent is skipped; a tagged field whose lookup name misses the raw data
is left unchanged; otherwise the field is written through its `sql.Scanner`
capability or through `scanFn`, errors being wrapped with `newScanError`.
A failing conversion leaves the field at its previous value (every error path
of the source converters returns before writing). -/
def processField {α : Type} (scanFn : FieldVal → α → Except String FieldVal)
    (structName : String) (data : List (String × α)) (f : StructField α) :
    Except String (StructField α) :=
  match f.tag with
  | none => Except.ok f
  | some tagValue =>
      match mapLookup data (tagLookupName tagValue) with
      | some dataVal =>
          match
            (if f.canSet then
              match f.scanner with
              | some scanCap => scanCap dataVal
              | none => scanFn f.value dataVal
            else Except.error "target not settable") with
          | Except.ok v2 => Except.ok { f with value := v2 }
          | Except.error e => Except.error (newScanError structName f.name e)
      | none => Except.ok f

/-- `ScanStruct` (src/unnamed/part_000 lines 68-130) restricted to a
non-pointer target: walk the fields in declaration order, mutating each
through `processField`; the first error stops the walk (the fields already
written keep their new values, the rest are untouched).  Returns the error
slot and the final fields. -/
def ScanStruct {α : Type} (scanFn : FieldVal → α → Except String FieldVal)
    (structName : String) (data : List (String × α)) :
    List (StructField α) → Option String × List (StructField α)
  | [] => (none, [])
  | f :: rest =>
      match processField scanFn structName data f with
      | Except.ok f2 =>
          match ScanStruct scanFn structName data rest with
          | (e, rest2) => (e, f2 :: rest2)
      | Except.error e => (some e, f :: rest)

/-- The row loop of `ScanStructSlice` (src/unnamed/part_000 lines 57-63):
decode each row into a fresh copy of the zero-valued `template` object and
append it to the accumulator slice; the first failing row aborts, returning
its error and the caller's untouched `container`. -/
def scanRows {α : Type} (scanFn : FieldVal → α → Except String FieldVal)
    (structName : String) (template : List (StructField α))
    (container : List (List (StructField α))) :
    List (List (String × α)) → List (List (StructField α)) →
      Option String × List (List (StructField α))
  | [], acc => (none, acc)
  | r :: rest, acc =>
      match ScanStruct scanFn structName r template with
      | (none, fs) => scanRows scanFn structName template container rest (acc ++ [fs])
      | (some e, _) => (some e, container)

/-- `ScanStructSlice` (src/unnamed/part_000 lines 44-66).  A non-settable
target fails with `ErrTargetNotSettable`; otherwise the rows are decoded in
order into a fresh slice which is assigned to the target only after every row
succeeded. -/
def ScanStructSlice {α : Type} (scanFn : FieldVal → α → Except String FieldVal)
    (structName : String) (data : List (List (String × α)))
    (template : List (StructField α)) (container : List (List (StructField α)))
    (canSet : Bool) : Option String × List (List (StructField α)) :=
  if canSet then scanRows scanFn structName template container data []
  else (some "target not settable", container)

/-! ## Association-list and recency-list lemmas -/

/-- A lookup misses exactly when the key is absent. -/
theorem mapLookup_eq_none_iff {α : Type} (m : List (String × α)) (k : String) :
    mapLookup m k = none ↔ k ∉ mapKeys m := by
  unfold mapLookup mapKeys
  rw [Option.map_eq_none', List.find?_eq_none]
  constructor
  · intro h hk
    obtain ⟨p, hp, hpk⟩ := List.mem_map.1 hk
    exact h p hp (by simp [hpk])
  · intro h p hp hpk
    exact h (List.mem_map.2 ⟨p, hp, by simpa using hpk⟩)

/-- A lookup hits exactly when the key is present. -/
theorem mapLookup_isSome_iff {α : Type} (m : List (String × α)) (k : String) :
    (mapLookup m k).isSome = true ↔ k ∈ mapKeys m := by
  rw [Option.isSome_iff_ne_none]
  constructor
  · intro hs
    by_contra hk
    exact hs ((mapLookup_eq_none_iff m k).2 hk)
  · intro hk hn
    exact (mapLookup_eq_none_iff m k).1 hn hk

/-- Keys of a deletion: the deleted key is filtered out. -/
theorem mapKeys_mapErase {α : Type} (m : List (String × α)) (k : String) :
    mapKeys (mapErase m k) = (mapKeys m).filter (fun x => x != k) := by
  unfold mapKeys mapErase
  exact (List.map_filter (p := fun x => x != k) Prod.fst m).symm

/-- Keys of an update. -/
theorem mapKeys_mapSet {α : Type} (m : List (String × α)) (k : String) (v : α) :
    mapKeys (mapSet m k v) = k :: mapKeys (mapErase m k) := rfl

/-- Updating then looking up the same key yields the new value. -/
theorem mapLookup_mapSet_self {α : Type} (m : List (String × α)) (k : String) (v : α) :
    mapLookup (mapSet m k v) k = some v := by
  simp [mapLookup, mapSet, List.find?]

/-- Deleting one key leaves the lookup of any other key unchanged. -/
theorem mapLookup_mapErase_ne {α : Type} (m : List (String × α)) {k f : String}
    (h : k ≠ f) : mapLookup (mapErase m f) k = mapLookup m k := by
  induction m with
  | nil => rfl
  | cons p rest ih =>
      by_cases hp : p.1 = f
      · have hpk : ¬((fun q : String × α => q.1 == k) p) = true := by
          simp only [beq_iff_eq, hp]
          exact fun hk => h hk.symm
        rw [show mapErase (p :: rest) f = mapErase rest f by
          simp [mapErase, List.filter_cons, hp]]
        rw [ih]
        unfold mapLookup
        rw [@List.find?_cons_of_neg _ (fun q => q.1 == k) p rest hpk]
      · rw [show mapErase (p :: rest) f = p :: mapErase rest f by
          simp [mapErase, List.filter_cons, hp]]
        by_cases hk : ((fun q : String × α => q.1 == k) p) = true
        · unfold mapLookup
          rw [@List.find?_cons_of_pos _ (fun q => q.1 == k) p rest hk,
            @List.find?_cons_of_pos _ (fun q => q.1 == k) p (mapErase rest f) hk]
        · unfold mapLookup at ih ⊢
          rw [@List.find?_cons_of_neg _ (fun q => q.1 == k) p rest hk,
            @List.find?_cons_of_neg _ (fun q => q.1 == k) p (mapErase rest f) hk]
          exact ih

/-- Filtering out an absent element is the identity. -/
theorem filter_ne_of_not_mem {l : List String} {a : String} (h : a ∉ l) :
    l.filter (fun x => x != a) = l := by
  rw [List.filter_eq_self]
  intro x hx
  simp only [bne_iff_ne, ne_eq]
  exact fun hxa => h (hxa ▸ hx)

/-- On a duplicate-free list, filtering out an element is erasing it. -/
theorem filter_ne_of_nodup {l : List String} {a : String} (h : l.Nodup) :
    l.filter (fun x => x != a) = l.erase a := by
  induction l with
  | nil => rfl
  | cons b rest ih =>
      rcases List.nodup_cons.1 h with ⟨hb, hrest⟩
      by_cases hba : b = a
      · subst hba
        rw [List.erase_cons_head]
        simp only [List.filter_cons, bne_self_eq_false]
        exact filter_ne_of_not_mem hb
      · rw [List.erase_cons_tail (by simpa using hba), List.filter_cons]
        have hb2 : (b != a) = true := by simpa using hba
        rw [hb2, if_pos rfl, ih hrest]

/-- Deleting an absent key is the identity. -/
theorem mapErase_of_not_mem {α : Type} {m : List (String × α)} {k : String}
    (h : k ∉ mapKeys m) : mapErase m k = m := by
  unfold mapErase
  rw [List.filter_eq_self]
  intro p hp
  simp only [bne_iff_ne, ne_eq]
  exact fun hpk => h (List.mem_map.2 ⟨p, hp, hpk⟩)

/-- `moveToBack` keeps distinctness when the key is on the list. -/
theorem moveToBack_nodup {o : List String} {k : String} (h : o.Nodup) :
    (moveToBack o k).Nodup := by
  unfold moveToBack
  rw [List.nodup_append]
  refine ⟨h.erase k, List.nodup_singleton k, ?_⟩
  intro a ha hk
  rcases List.mem_singleton.1 hk with rfl
  exact ((h.mem_erase_iff.1 ha).1) rfl

/-- `moveToBack` permutes the list when the key is on it. -/
theorem moveToBack_perm {o : List String} {k : String} (h : k ∈ o) :
    (moveToBack o k).Perm o := by
  unfold moveToBack
  exact ((List.perm_append_singleton k (o.erase k)).trans
    (List.perm_cons_erase h).symm)

/-! ## Eviction-loop lemmas -/

/-- One eviction step under the core invariant: the front key is removed from
both the list and the map, and the counters stay consistent. -/
theorem delFrontStep_spec {α : Type} (s : modelLruCache α) (h : CoreInv s) :
    CoreInv (delFrontStep s) ∧ (delFrontStep s).order = s.order.tail ∧
      (delFrontStep s).capacity = s.capacity := by
  rcases h with ⟨hnd, hperm, hused⟩
  cases hord : s.order with
  | nil =>
      have hs : delFrontStep s = s := by unfold delFrontStep; rw [hord]
      rw [hs, hord]
      exact ⟨⟨hnd, hperm, hused⟩, rfl, rfl⟩
  | cons k rest =>
      have hmem : k ∈ s.order := by rw [hord]; exact List.mem_cons_self k rest
      have hkeys : k ∈ mapKeys s.elements := hperm.mem_iff.2 hmem
      obtain ⟨v, hv⟩ := Option.isSome_iff_exists.1 ((mapLookup_isSome_iff _ _).2 hkeys)
      have hs : delFrontStep s =
          { s with order := rest, elements := mapErase s.elements k, used := s.used - 1 } := by
        unfold delFrontStep
        rw [hord]
        simp only [hv]
      have hnd2 : (k :: rest).Nodup := hord ▸ hnd
      rcases List.nodup_cons.1 hnd2 with ⟨hknr, hndrest⟩
      rw [hs]
      refine ⟨⟨hndrest, ?_, ?_⟩, ?_, rfl⟩
      · show (mapKeys (mapErase s.elements k)).Perm rest
        rw [mapKeys_mapErase]
        have h1 : ((mapKeys s.elements).filter (fun x => x != k)).Perm
            (s.order.filter (fun x => x != k)) := hperm.filter _
        rw [hord] at h1
        simp only [List.filter_cons, bne_self_eq_false] at h1
        rwa [filter_ne_of_not_mem hknr] at h1
      · show s.used - 1 = ((rest.length : Nat) : Int)
        have hused2 : s.used = (((k :: rest).length : Nat) : Int) := by rw [hused, hord]
        simp only [List.length_cons] at hused2
        push_cast at hused2 ⊢
        omega
      · rfl

/-- Iterating the eviction step `n` times drops the first `n` recency-list
entries (or everything, when `n` exceeds the length) and keeps the core
invariant and the capacity. -/
theorem iterSteps_spec {α : Type} :
    ∀ (n : Nat) (s : modelLruCache α), CoreInv s →
      CoreInv (iterSteps n s) ∧ (iterSteps n s).order = s.order.drop n ∧
        (iterSteps n s).capacity = s.capacity := by
  intro n
  induction n with
  | zero => intro s h; exact ⟨h, by simp [iterSteps], rfl⟩
  | succ n ih =>
      intro s h
      obtain ⟨h1, hord1, hcap1⟩ := delFrontStep_spec s h
      obtain ⟨h2, hord2, hcap2⟩ := ih (delFrontStep s) h1
      refine ⟨h2, ?_, ?_⟩
      · show (iterSteps n (delFrontStep s)).order = _
        rw [hord2, hord1, ← List.drop_one, List.drop_drop]
        congr 1
        omega
      · show (iterSteps n (delFrontStep s)).capacity = _
        rw [hcap2, hcap1]

/-- `delListFrontElement` under the core invariant. -/
theorem delListFrontElement_spec {α : Type} (s : modelLruCache α) (h : CoreInv s) :
    CoreInv s.delListFrontElement ∧
      s.delListFrontElement.order = s.order.drop (s.used - s.capacity).toNat ∧
      s.delListFrontElement.capacity = s.capacity :=
  iterSteps_spec _ s h

/-! ## Invariant preservation by the public operations -/

/-- A fresh cache satisfies the invariant. -/
theorem CacheInv_new {α : Type} (c : Int) : CacheInv (newDaoLru (α := α) c) :=
  ⟨⟨List.nodup_nil, List.Perm.refl _, rfl⟩, le_max_right c 0⟩

/-- `Clear` restores the invariant outright. -/
theorem CacheInv_clear {α : Type} (s : modelLruCache α) : CacheInv s.Clear :=
  ⟨⟨List.nodup_nil, List.Perm.refl _, rfl⟩, le_max_right daoModelLruCacheCapacity 0⟩

/-- `Get` preserves the invariant. -/
theorem CacheInv_get {α : Type} (s : modelLruCache α) (k : String) (h : CacheInv s) :
    CacheInv (s.Get k).2 := by
  obtain ⟨⟨hnd, hperm, hused⟩, hcap⟩ := h
  unfold modelLruCache.Get
  by_cases hu : 0 < s.used
  · rw [if_pos hu]
    cases hv : mapLookup s.elements k with
    | none => exact ⟨⟨hnd, hperm, hused⟩, hcap⟩
    | some v =>
        have hkeys : k ∈ mapKeys s.elements :=
          (mapLookup_isSome_iff _ _).1 (by rw [hv]; rfl)
        have hmem : k ∈ s.order := hperm.mem_iff.1 hkeys
        refine ⟨⟨moveToBack_nodup hnd, hperm.trans (moveToBack_perm hmem).symm, ?_⟩, hcap⟩
        show s.used = (((moveToBack s.order k).length : Nat) : Int)
        rw [(moveToBack_perm hmem).length_eq, hused]
  · rw [if_neg hu]
    exact ⟨⟨hnd, hperm, hused⟩, hcap⟩

/-- `Del` preserves the invariant. -/
theorem CacheInv_del {α : Type} (s : modelLruCache α) (k : String) (h : CacheInv s) :
    CacheInv (s.Del k) := by
  obtain ⟨⟨hnd, hperm, hused⟩, hcap⟩ := h
  unfold modelLruCache.Del
  cases hv : mapLookup s.elements k with
  | none => exact ⟨⟨hnd, hperm, hused⟩, hcap⟩
  | some v =>
      have hkeys : k ∈ mapKeys s.elements :=
        (mapLookup_isSome_iff _ _).1 (by rw [hv]; rfl)
      have hmem : k ∈ s.order := hperm.mem_iff.1 hkeys
      have hlen : 1 ≤ s.order.length := List.length_pos.2 (List.ne_nil_of_mem hmem)
      refine ⟨⟨hnd.erase k, ?_, ?_⟩, ?_⟩
      · rw [mapKeys_mapErase, ← filter_ne_of_nodup hnd]
        exact hperm.filter _
      · show s.used - 1 = ((s.order.erase k).length : Int)
        rw [List.length_erase_of_mem hmem, hused]
        omega
      · show s.used - 1 ≤ max s.capacity 0
        omega

/-- `resetCapacity` preserves the invariant: after the immediate eviction the
cache is back within the new capacity. -/
theorem CacheInv_reset {α : Type} (s : modelLruCache α) (c : Int) (h : CacheInv s) :
    CacheInv (s.resetCapacity c) := by
  obtain ⟨hcore, hcap⟩ := h
  have hcore2 : CoreInv { s with capacity := c } := hcore
  obtain ⟨hc2, hord2, hcap2⟩ := delListFrontElement_spec { s with capacity := c } hcore2
  refine ⟨hc2, ?_⟩
  rcases hc2 with ⟨_, _, hused2⟩
  rcases hcore with ⟨_, _, hused⟩
  show (modelLruCache.delListFrontElement { s with capacity := c }).used ≤
    max (modelLruCache.delListFrontElement { s with capacity := c }).capacity 0
  rw [hused2, hcap2, hord2]
  simp only [List.length_drop]
  rcases le_or_lt 0 c with h0 | h0
  · rw [max_eq_left h0]
    omega
  · rw [max_eq_right (le_of_lt h0)]
    omega

/-- Inserting a fresh key under the invariant with capacity at least 1:
the invariant is preserved, the capacity is unchanged, and the new recency
list is the old one with the key appended, clipped at the front to the
capacity. -/
theorem put_fresh_spec {α : Type} (s : modelLruCache α) (k : String) (v : α)
    (h : CacheInv s) (hc : 1 ≤ s.capacity) (hk : k ∉ s.order) :
    CacheInv (s.Put k v) ∧ (s.Put k v).capacity = s.capacity ∧
      (s.Put k v).order =
        (s.order ++ [k]).drop (s.order.length + 1 - s.capacity.toNat) ∧
      mapLookup (s.Put k v).elements k = some v := by
  obtain ⟨⟨hnd, hperm, hused⟩, hcap⟩ := h
  have hkeys : k ∉ mapKeys s.elements := fun hx => hk (hperm.mem_iff.1 hx)
  have hlk : mapLookup s.elements k = none := (mapLookup_eq_none_iff _ _).2 hkeys
  have hput : s.Put k v = (s.addElement k v).delListFrontElement := by
    unfold modelLruCache.Put
    rw [if_neg (by omega), hlk]
  have hadd : s.addElement k v =
      { s with
          used := s.used + 1
          order := s.order ++ [k]
          elements := mapSet s.elements k v } := rfl
  have hcore1 : CoreInv (s.addElement k v) := by
    rw [hadd]
    refine ⟨?_, ?_, ?_⟩
    · show (s.order ++ [k]).Nodup
      rw [List.nodup_append]
      exact ⟨hnd, List.nodup_singleton k, fun a ha hae =>
        hk ((List.mem_singleton.1 hae) ▸ ha)⟩
    · show (mapKeys (mapSet s.elements k v)).Perm (s.order ++ [k])
      rw [mapKeys_mapSet, mapKeys_mapErase, filter_ne_of_not_mem hkeys]
      exact ((hperm.cons k).trans (List.perm_append_singleton k s.order).symm)
    · show s.used + 1 = (((s.order ++ [k]).length : Nat) : Int)
      rw [List.length_append, List.length_singleton]
      push_cast
      omega
  obtain ⟨hc2, hord2, hcap2⟩ := delListFrontElement_spec (s.addElement k v) hcore1
  rw [← hput] at hc2 hord2 hcap2
  have hlen : s.order.length ≤ s.capacity.toNat := by omega
  have hn : ((s.addElement k v).used - (s.addElement k v).capacity).toNat =
      s.order.length + 1 - s.capacity.toNat := by
    rw [hadd]
    simp only [hused]
    omega
  refine ⟨⟨hc2, ?_⟩, by rw [hcap2, hadd], by rw [hord2, hn, hadd], ?_⟩
  · rcases hc2 with ⟨_, _, hused2⟩
    rw [hused2, hord2, hn]
    rw [show ((s.addElement k v).order) = s.order ++ [k] from rfl]
    simp only [List.length_drop, List.length_append, List.length_singleton]
    rw [show (s.Put k v).capacity = s.capacity from by rw [hcap2, hadd]]
    rw [max_eq_left (by omega)]
    omega
  · -- the fresh key survives the (at most one) eviction step
    rw [hput]
    have hsteps : ((s.addElement k v).used - (s.addElement k v).capacity).toNat = 0 ∨
        ((s.addElement k v).used - (s.addElement k v).capacity).toNat = 1 := by
      rw [hadd]
      simp only [hused]
      rcases le_or_lt 0 s.capacity with h0 | h0
      · rw [max_eq_left h0] at hcap
        omega
      · omega
    unfold modelLruCache.delListFrontElement
    rcases hsteps with h1 | h1
    · rw [h1]
      show mapLookup (mapSet s.elements k v) k = some v
      exact mapLookup_mapSet_self _ _ _
    · rw [h1]
      show mapLookup (delFrontStep (s.addElement k v)).elements k = some v
      have hup : 1 ≤ s.order.length := by
        rw [hadd] at h1
        simp only [hused] at h1
        by_contra hno
        have : s.order.length = 0 := by omega
        omega
      obtain ⟨f, t, hft⟩ : ∃ f t, s.order = f :: t := by
        cases hso : s.order with
        | nil => rw [hso] at hup; simp at hup
        | cons f t => exact ⟨f, t, rfl⟩
      have hfmem : f ∈ s.order := by rw [hft]; exact List.mem_cons_self f t
      have hfk : f ≠ k := fun hfe => hk (hfe ▸ hfmem)
      have hford : (s.addElement k v).order = f :: (t ++ [k]) := by
        rw [hadd]
        show s.order ++ [k] = f :: (t ++ [k])
        rw [hft]
        rfl
      have hflk : mapLookup (s.addElement k v).elements f = mapLookup s.elements f := by
        rw [hadd]
        show mapLookup (mapSet s.elements k v) f = _
        unfold mapSet
        rw [show mapLookup ((k, v) :: mapErase s.elements k) f =
            mapLookup (mapErase s.elements k) f from by
          unfold mapLookup
          rw [@List.find?_cons_of_neg _ (fun q => q.1 == f) (k, v)
            (mapErase s.elements k) (by simpa using Ne.symm hfk)]]
        exact mapLookup_mapErase_ne _ hfk
      have hfsome : (mapLookup (s.addElement k v).elements f).isSome = true := by
        rw [hflk]
        exact (mapLookup_isSome_iff _ _).2 (hperm.mem_iff.2 hfmem)
      obtain ⟨w, hw⟩ := Option.isSome_iff_exists.1 hfsome
      have hstep : delFrontStep (s.addElement k v) =
          { (s.addElement k v) with
              order := t ++ [k]
              elements := mapErase (s.addElement k v).elements f
              used := (s.addElement k v).used - 1 } := by
        unfold delFrontStep
        rw [hford]
        simp only [hw]
      rw [hstep]
      show mapLookup (mapErase (s.addElement k v).elements f) k = some v
      rw [mapLookup_mapErase_ne _ (Ne.symm hfk)]
      rw [hadd]
      exact mapLookup_mapSet_self _ _ _

/-- `Put` preserves the invariant. -/
theorem CacheInv_put {α : Type} (s : modelLruCache α) (k : String) (v : α) (h : CacheInv s) :
    CacheInv (s.Put k v) := by
  by_cases hcl : s.capacity < 1
  · have : s.Put k v = s := by unfold modelLruCache.Put; rw [if_pos hcl]
    rw [this]
    exact h
  cases hv : mapLookup s.elements k with
  | none =>
      have hk : k ∉ s.order := fun hm =>
        (mapLookup_eq_none_iff _ _).1 hv (h.1.2.1.mem_iff.2 hm)
      exact (put_fresh_spec s k v h (by omega) hk).1
  | some w =>
      obtain ⟨⟨hnd, hperm, hused⟩, hcap⟩ := h
      have hkeys : k ∈ mapKeys s.elements :=
        (mapLookup_isSome_iff _ _).1 (by rw [hv]; rfl)
      have hmem : k ∈ s.order := hperm.mem_iff.1 hkeys
      have hs : s.Put k v =
          { s with
              elements := mapSet s.elements k v
              order := moveToBack s.order k } := by
        unfold modelLruCache.Put
        rw [if_neg hcl]
        simp only [hv]
      rw [hs]
      refine ⟨⟨moveToBack_nodup hnd, ?_, ?_⟩, hcap⟩
      · show (mapKeys (mapSet s.elements k v)).Perm (moveToBack s.order k)
        rw [mapKeys_mapSet, mapKeys_mapErase]
        unfold moveToBack
        refine List.Perm.trans ?_ (List.perm_append_singleton k (s.order.erase k)).symm
        refine List.Perm.cons k ?_
        rw [← filter_ne_of_nodup hnd]
        exact hperm.filter _
      · show s.used = ((moveToBack s.order k).length : Int)
        rw [(moveToBack_perm hmem).length_eq, hused]

/-- Every reachable cache state satisfies the structural invariant. -/
theorem CacheInv_reachable {α : Type} (s : modelLruCache α) (h : Reachable s) : CacheInv s := by
  induction h with
  | base c => exact CacheInv_new c
  | get s k _ ih => exact CacheInv_get s k ih
  | put s k v _ ih => exact CacheInv_put s k v ih
  | del s k _ ih => exact CacheInv_del s k ih
  | reset s c _ ih => exact CacheInv_reset s c ih
  | clear s _ _ => exact CacheInv_clear s

/-- Inserting a batch of distinct keys that are all fresh for the cache:
the invariant and capacity are preserved, and the resulting recency list is
the old list followed by the new keys, clipped at the front to the
capacity. -/
theorem putAll_fresh_spec {α : Type} :
    ∀ (kvs : List (String × α)) (s : modelLruCache α), CacheInv s → 1 ≤ s.capacity →
      (kvs.map Prod.fst).Nodup → (∀ k ∈ kvs.map Prod.fst, k ∉ s.order) →
      CacheInv (putAll kvs s) ∧ (putAll kvs s).capacity = s.capacity ∧
        (putAll kvs s).order =
          (s.order ++ kvs.map Prod.fst).drop
            (s.order.length + kvs.length - s.capacity.toNat) := by
  intro kvs
  induction kvs with
  | nil =>
      intro s h hc _ _
      have hlen : s.order.length ≤ s.capacity.toNat := by
        obtain ⟨⟨-, -, hused⟩, hcap⟩ := h
        rw [max_eq_left (by omega)] at hcap
        omega
      refine ⟨h, rfl, ?_⟩
      simp only [putAll, List.foldl_nil, List.map_nil, List.append_nil, List.length_nil,
        Nat.add_zero, Nat.sub_eq_zero_of_le hlen, List.drop_zero]
  | cons kv rest ih =>
      intro s h hc hnd hfresh
      have hnd2 : (kv.1 :: rest.map Prod.fst).Nodup := by
        simpa only [List.map_cons] using hnd
      rcases List.nodup_cons.1 hnd2 with ⟨hkv, hndrest⟩
      have hk0 : kv.1 ∉ s.order := hfresh kv.1 (by simp)
      obtain ⟨h1, hcap1, hord1, -⟩ := put_fresh_spec s kv.1 kv.2 h hc hk0
      have hlen : s.order.length ≤ s.capacity.toNat := by
        obtain ⟨⟨-, -, hused⟩, hcap⟩ := h
        rw [max_eq_left (by omega)] at hcap
        omega
      have hstep : putAll (kv :: rest) s = putAll rest (s.Put kv.1 kv.2) := rfl
      have hfresh2 : ∀ x ∈ rest.map Prod.fst, x ∉ (s.Put kv.1 kv.2).order := by
        intro x hx hmem
        rw [hord1] at hmem
        rcases List.mem_append.1 (List.mem_of_mem_drop hmem) with h2 | h2
        · exact hfresh x (by simp [hx]) h2
        · exact hkv ((List.mem_singleton.1 h2) ▸ hx)
      obtain ⟨h2, hcap2, hord2⟩ :=
        ih (s.Put kv.1 kv.2) h1 (by rw [hcap1]; exact hc) hndrest hfresh2
      rw [hstep]
      refine ⟨h2, by rw [hcap2, hcap1], ?_⟩
      rw [hord2, hord1, hcap1]
      rw [show (s.order ++ [kv.1]).drop (s.order.length + 1 - s.capacity.toNat) ++
          rest.map Prod.fst =
          ((s.order ++ [kv.1]) ++ rest.map Prod.fst).drop
            (s.order.length + 1 - s.capacity.toNat) from
        (List.drop_append_of_le_length (by
          rw [List.length_append, List.length_singleton]; omega)).symm]
      rw [List.drop_drop]
      rw [List.append_assoc]
      simp only [List.length_drop, List.length_append, List.length_singleton,
        List.length_cons, List.length_map, List.singleton_append, List.map_cons,
        List.length_nil]
      congr 1
      omega

/-- `Get` returns the stored value when the cache is non-empty and the key is
present. -/
theorem get_fst_of_lookup {α : Type} (s : modelLruCache α) (k : String) (v : α)
    (hu : 0 < s.used) (hl : mapLookup s.elements k = some v) : (s.Get k).1 = some v := by
  unfold modelLruCache.Get
  rw [if_pos hu]
  simp only [hl]

/-- `Get` misses when the key is absent from the lookup map. -/
theorem get_fst_none_of_lookup_none {α : Type} (s : modelLruCache α) (k : String)
    (hl : mapLookup s.elements k = none) : (s.Get k).1 = none := by
  unfold modelLruCache.Get
  by_cases hu : 0 < s.used
  · rw [if_pos hu]
    simp only [hl]
  · rw [if_neg hu]

/-! ## Claim theorems: the cache -/

/-- C4: in every cache state reachable from a fresh cache by any sequence of
`Get`, `Put`, `Del`, `resetCapacity` and `Clear`, the keys of the lookup map
and the nodes of the recency list are in one-to-one correspondence (same
membership, and no duplicates on either side, so the correspondence is a
bijection), and the used-count equals the number of keys in the map. -/
theorem lru_map_list_invariant {α : Type} (s : modelLruCache α) (h : Reachable s) :
    (∀ k, k ∈ mapKeys s.elements ↔ k ∈ s.order) ∧ (mapKeys s.elements).Nodup ∧
      s.order.Nodup ∧ s.used = (s.elements.length : Int) := by
  obtain ⟨⟨hnd, hperm, hused⟩, -⟩ := CacheInv_reachable s h
  refine ⟨fun k => hperm.mem_iff, hperm.nodup_iff.2 hnd, hnd, ?_⟩
  rw [hused]
  norm_cast
  rw [← hperm.length_eq]
  simp [mapKeys]

/-- Witness for C4 at a concrete reachable state. -/
theorem lru_map_list_invariant_witness :
    (∀ k, k ∈ mapKeys ((newDaoLru (α := Nat) 2).Put "a" 0).elements ↔
        k ∈ ((newDaoLru (α := Nat) 2).Put "a" 0).order) ∧
      (mapKeys ((newDaoLru (α := Nat) 2).Put "a" 0).elements).Nodup ∧
      ((newDaoLru (α := Nat) 2).Put "a" 0).order.Nodup ∧
      ((newDaoLru (α := Nat) 2).Put "a" 0).used =
        (((newDaoLru (α := Nat) 2).Put "a" 0).elements.length : Int) :=
  lru_map_list_invariant _ (Reachable.put _ "a" 0 (Reachable.base 2))

/-- C5: on any invariant-satisfying cache whose capacity is at least 1,
`Put k v` immediately followed by `Get k` returns exactly `v` with no
error. -/
theorem put_get_roundtrip {α : Type} (s : modelLruCache α) (k : String) (v : α)
    (h : CacheInv s) (hc : 1 ≤ s.capacity) : ((s.Put k v).Get k).1 = some v := by
  cases hv : mapLookup s.elements k with
  | none =>
      have hk : k ∉ s.order := fun hm =>
        (mapLookup_eq_none_iff _ _).1 hv (h.1.2.1.mem_iff.2 hm)
      obtain ⟨⟨⟨-, -, husedP⟩, -⟩, -, hordP, hlkP⟩ := put_fresh_spec s k v h hc hk
      have hc1 : 1 ≤ s.capacity.toNat := by omega
      have hd : s.order.length + 1 - s.capacity.toNat ≤ s.order.length := by omega
      have hkmem : k ∈ (s.Put k v).order := by
        rw [hordP, List.drop_append_of_le_length hd]
        exact List.mem_append.2 (Or.inr (by simp))
      have hu : 0 < (s.Put k v).used := by
        rw [husedP]
        exact_mod_cast List.length_pos.2 (List.ne_nil_of_mem hkmem)
      exact get_fst_of_lookup _ k v hu hlkP
  | some w =>
      obtain ⟨⟨hnd, hperm, hused⟩, -⟩ := h
      have hkeys : k ∈ mapKeys s.elements :=
        (mapLookup_isSome_iff _ _).1 (by rw [hv]; rfl)
      have hmem : k ∈ s.order := hperm.mem_iff.1 hkeys
      have hu : 0 < s.used := by
        rw [hused]
        exact_mod_cast List.length_pos.2 (List.ne_nil_of_mem hmem)
      have hs : s.Put k v =
          { s with
              elements := mapSet s.elements k v
              order := moveToBack s.order k } := by
        unfold modelLruCache.Put
        rw [if_neg (by omega)]
        simp only [hv]
      rw [hs]
      exact get_fst_of_lookup _ k v hu (mapLookup_mapSet_self _ _ _)

/-- Witness for C5 on a concrete cache. -/
theorem put_get_roundtrip_witness :
    (((newDaoLru (α := Nat) 1).Put "a" 0).Get "a").1 = some 0 :=
  put_get_roundtrip (newDaoLru 1) "a" 0 (CacheInv_new 1) (by decide)

/-- C3 counterexample: with capacity 1, insert the two distinct keys "a", "b"
(capacity + 1 keys), `Get "b"` hits (so "b" is promoted to most recently
used), then inserting capacity = 1 more distinct new key "c" nevertheless
evicts "b": `Get "b"` now misses, refuting the claim that `k` stays
retrievable after inserting capacity more distinct new keys. -/
theorem lru_recency_counterexample :
    ((putAll [("a", (0 : Nat)), ("b", 1)] (newDaoLru 1)).Get "b").1 = some 1 ∧
      ((((putAll [("a", (0 : Nat)), ("b", 1)] (newDaoLru 1)).Get "b").2.Put "c" 2).Get
          "b").1 = none := by
  constructor
  · rfl
  · rfl

/-- C3 (amended): inserting capacity + 1 distinct keys into an empty cache
with no intervening `Get` evicts exactly the least-recently-inserted key
(the first one misses, all the others remain retrievable); and on any
invariant-satisfying cache a `Get k` that hits promotes `k`, so inserting
capacity − 1 (not capacity) more distinct new keys after the `Get` still
leaves `k` retrievable. -/
theorem lru_eviction_recency {α : Type} (c : Int) (hc : 1 ≤ c) :
    (∀ (kv0 : String × α) (rest : List (String × α)),
      (kv0 :: rest).length = c.toNat + 1 →
      ((kv0 :: rest).map Prod.fst).Nodup →
      (((putAll (kv0 :: rest) (newDaoLru c)).Get kv0.1).1 = none ∧
        ∀ k ∈ rest.map Prod.fst,
          (((putAll (kv0 :: rest) (newDaoLru c)).Get k).1).isSome = true)) ∧
    (∀ (s : modelLruCache α) (k : String), CacheInv s → s.capacity = c →
      (mapLookup s.elements k).isSome = true →
      ∀ ks : List (String × α), (ks.map Prod.fst).Nodup →
        ks.length ≤ c.toNat - 1 → (∀ x ∈ ks.map Prod.fst, x ∉ s.order) →
        (((putAll ks (s.Get k).2).Get k).1).isSome = true) := by
  constructor
  · intro kv0 rest hlen hnd
    have hfresh : ∀ k ∈ (kv0 :: rest).map Prod.fst, k ∉ (newDaoLru (α := α) c).order := by
      intro k _ hk
      simp [newDaoLru] at hk
    obtain ⟨⟨⟨hndF, hpermF, husedF⟩, -⟩, -, hordF⟩ :=
      putAll_fresh_spec (kv0 :: rest) (newDaoLru c) (CacheInv_new c) hc hnd hfresh
    rw [show (newDaoLru (α := α) c).order = [] from rfl] at hordF
    rw [show (newDaoLru (α := α) c).capacity = c from rfl] at hordF
    simp only [List.nil_append, List.length_nil, Nat.zero_add, List.map_cons] at hordF
    rw [hlen] at hordF
    rw [show c.toNat + 1 - c.toNat = 1 from by omega] at hordF
    rw [show List.drop 1 (kv0.1 :: rest.map Prod.fst) = rest.map Prod.fst from rfl] at hordF
    have hnd2 : (kv0.1 :: rest.map Prod.fst).Nodup := by
      simpa only [List.map_cons] using hnd
    rcases List.nodup_cons.1 hnd2 with ⟨hk0, -⟩
    constructor
    · apply get_fst_none_of_lookup_none
      apply (mapLookup_eq_none_iff _ _).2
      intro hmem
      exact hk0 (by rw [← hordF]; exact hpermF.mem_iff.1 hmem)
    · intro k hk
      have hkkeys : k ∈ mapKeys (putAll (kv0 :: rest) (newDaoLru (α := α) c)).elements :=
        hpermF.mem_iff.2 (by rw [hordF]; exact hk)
      obtain ⟨w, hw⟩ := Option.isSome_iff_exists.1 ((mapLookup_isSome_iff _ _).2 hkkeys)
      have hu : 0 < (putAll (kv0 :: rest) (newDaoLru (α := α) c)).used := by
        rw [husedF]
        have : k ∈ (putAll (kv0 :: rest) (newDaoLru (α := α) c)).order := by
          rw [hordF]; exact hk
        exact_mod_cast List.length_pos.2 (List.ne_nil_of_mem this)
      rw [get_fst_of_lookup _ k w hu hw]
      rfl
  · intro s k hInv hcapc hhit ks hndks hlenks hfreshks
    obtain ⟨v, hv⟩ := Option.isSome_iff_exists.1 hhit
    obtain ⟨⟨hnd, hperm, hused⟩, hcapb⟩ := hInv
    have hkmem : k ∈ s.order := hperm.mem_iff.1 ((mapLookup_isSome_iff _ _).1 hhit)
    have hu : 0 < s.used := by
      rw [hused]
      exact_mod_cast List.length_pos.2 (List.ne_nil_of_mem hkmem)
    have hget2 : (s.Get k).2 = { s with order := moveToBack s.order k } := by
      unfold modelLruCache.Get
      rw [if_pos hu]
      simp only [hv]
    have hInv2 : CacheInv (s.Get k).2 := CacheInv_get s k ⟨⟨hnd, hperm, hused⟩, hcapb⟩
    have hfresh2 : ∀ x ∈ ks.map Prod.fst, x ∉ (s.Get k).2.order := by
      intro x hx hmem
      rw [hget2] at hmem
      have hmem2 : x ∈ s.order.erase k ∨ x = k := by simpa [moveToBack] using hmem
      rcases hmem2 with h2 | h2
      · exact hfreshks x hx ((List.erase_sublist k s.order).mem h2)
      · exact hfreshks x hx (h2 ▸ hkmem)
    have hc2 : 1 ≤ (s.Get k).2.capacity := by
      rw [hget2]
      show 1 ≤ s.capacity
      omega
    obtain ⟨⟨⟨hnd3, hperm3, hused3⟩, -⟩, -, hord3⟩ :=
      putAll_fresh_spec ks (s.Get k).2 hInv2 hc2 hndks hfresh2
    have hordG : (s.Get k).2.order = moveToBack s.order k := by rw [hget2]
    have hcapG : (s.Get k).2.capacity = s.capacity := by rw [hget2]
    rw [hordG, hcapG] at hord3
    have hlenmb : (moveToBack s.order k).length = s.order.length :=
      (moveToBack_perm hkmem).length_eq
    have hlens : s.order.length ≤ s.capacity.toNat := by
      rw [max_eq_left (by omega)] at hcapb
      omega
    have hlen1 : 1 ≤ s.order.length := List.length_pos.2 (List.ne_nil_of_mem hkmem)
    have hD : ((moveToBack s.order k).length + ks.length - s.capacity.toNat) ≤
        (s.order.erase k).length := by
      rw [hlenmb, List.length_erase_of_mem hkmem]
      omega
    have hord4 : (putAll ks (s.Get k).2).order =
        (s.order.erase k).drop
            ((moveToBack s.order k).length + ks.length - s.capacity.toNat) ++
          ([k] ++ ks.map Prod.fst) := by
      rw [hord3]
      rw [show moveToBack s.order k ++ ks.map Prod.fst =
        s.order.erase k ++ ([k] ++ ks.map Prod.fst) from by
          rw [moveToBack, List.append_assoc]]
      exact List.drop_append_of_le_length hD
    have hkmem4 : k ∈ (putAll ks (s.Get k).2).order := by
      rw [hord4]
      exact List.mem_append.2 (Or.inr (List.mem_append.2 (Or.inl (by simp))))
    have hkkeys4 : k ∈ mapKeys (putAll ks (s.Get k).2).elements :=
      hperm3.mem_iff.2 hkmem4
    obtain ⟨w, hw⟩ := Option.isSome_iff_exists.1 ((mapLookup_isSome_iff _ _).2 hkkeys4)
    have hu4 : 0 < (putAll ks (s.Get k).2).used := by
      rw [hused3]
      exact_mod_cast List.length_pos.2 (List.ne_nil_of_mem hkmem4)
    rw [get_fst_of_lookup _ k w hu4 hw]
    rfl

/-- Witness for C3 (amended) at capacity 1 with keys "a", "b". -/
theorem lru_eviction_recency_witness :
    ((putAll [("a", (0 : Nat)), ("b", 1)] (newDaoLru 1)).Get "a").1 = none :=
  ((lru_eviction_recency (α := Nat) 1 (by decide)).1 ("a", 0) [("b", 1)]
    (by decide) (by decide)).1

/-! ## Claim theorems: the cache key builder -/

/-- If the empty string occurs anywhere among the index values, the whole key
build fails (with some error). -/
theorem buildKeyAux_error_of_empty (vals : List IndexVal) :
    ∀ acc, IndexVal.strV "" ∈ vals → ∃ e, buildKeyAux acc vals = Except.error e := by
  induction vals with
  | nil =>
      intro acc h
      simp at h
  | cons v rest ih =>
      intro acc hmem
      cases hr : renderVal v with
      | error e =>
          refine ⟨e, ?_⟩
          unfold buildKeyAux
          rw [hr]
      | ok sv =>
          rcases List.mem_cons.1 hmem with hv | hmem2
          · exfalso
            rw [← hv] at hr
            simp [renderVal] at hr
          · obtain ⟨e, he⟩ := ih (acc ++ sv) hmem2
            refine ⟨e, ?_⟩
            unfold buildKeyAux
            rw [hr]
            exact he

/-- When every value before the first empty string renders successfully, the
build fails with exactly the empty-string configuration error. -/
theorem buildKeyAux_first_empty (pre : List IndexVal) :
    ∀ (acc : String) (post : List IndexVal),
      (∀ v ∈ pre, ∃ s, renderVal v = Except.ok s) →
      buildKeyAux acc (pre ++ IndexVal.strV "" :: post) =
        Except.error "the index key can not be empty string" := by
  induction pre with
  | nil =>
      intro acc post _
      rfl
  | cons v rest ih =>
      intro acc post hok
      obtain ⟨sv, hsv⟩ := hok v (by simp)
      show buildKeyAux acc (v :: (rest ++ IndexVal.strV "" :: post)) = _
      unfold buildKeyAux
      rw [hsv]
      exact ih (acc ++ sv) post (fun w hw => hok w (by simp [hw]))

/-- C7 counterexample: a tuple containing the empty string can fail with a
different error when an unsupported value precedes it, so the claim that the
failure is always the empty-string configuration error is false as stated. -/
theorem buildKey_empty_counterexample :
    buildKey "t" [IndexVal.otherV, IndexVal.strV ""] =
        Except.error "not support index key" ∧
      "not support index key" ≠ "the index key can not be empty string" := by
  constructor
  · rfl
  · decide

/-- C7 (amended): a tuple containing an empty string always makes `buildKey`
fail (no key is returned), and the error is the
"the index key can not be empty string" configuration error whenever every
value before the empty string is itself accepted. -/
theorem buildKey_empty_string_error :
    (∀ (t : String) (vals : List IndexVal), IndexVal.strV "" ∈ vals →
      ∃ e, buildKey t vals = Except.error e) ∧
    (∀ (t : String) (pre post : List IndexVal),
      (∀ v ∈ pre, ∃ s, renderVal v = Except.ok s) →
      buildKey t (pre ++ IndexVal.strV "" :: post) =
        Except.error "the index key can not be empty string") := by
  constructor
  · intro t vals hmem
    exact buildKeyAux_error_of_empty vals t hmem
  · intro t pre post hok
    exact buildKeyAux_first_empty pre t post hok

/-- Witness for C7 (amended). -/
theorem buildKey_empty_string_error_witness :
    buildKey "tbl" [IndexVal.intV 5, IndexVal.strV ""] =
      Except.error "the index key can not be empty string" :=
  (buildKey_empty_string_error).2 "tbl" [IndexVal.intV 5] []
    (by
      intro v hv
      rcases List.mem_singleton.1 hv with rfl
      exact ⟨delimS ++ toString (5 : Int), rfl⟩)

/-- Replacing one index value by another with the same rendering leaves the
key build unchanged. -/
theorem buildKeyAux_congr_mid (pre : List IndexVal) :
    ∀ (acc : String) (v w : IndexVal) (post : List IndexVal),
      renderVal v = renderVal w →
      buildKeyAux acc (pre ++ v :: post) = buildKeyAux acc (pre ++ w :: post) := by
  induction pre with
  | nil =>
      intro acc v w post h
      show buildKeyAux acc (v :: post) = buildKeyAux acc (w :: post)
      unfold buildKeyAux
      rw [h]
  | cons u rest ih =>
      intro acc v w post h
      show buildKeyAux acc (u :: (rest ++ v :: post)) =
        buildKeyAux acc (u :: (rest ++ w :: post))
      unfold buildKeyAux
      cases hu : renderVal u with
      | error e => rfl
      | ok su => exact ih (acc ++ su) v w post h

/-- C10: `buildKey` accepts an empty byte-sequence index value, contributing
only the delimiter with no error, while an empty string at the same place is
rejected; and a byte-sequence value contributes exactly the same key text as
a string value with identical bytes. -/
theorem buildKey_bytes_string :
    (∀ t : String, buildKey t [IndexVal.bytesV ""] = Except.ok (t ++ delimS)) ∧
    (∀ t : String, ∃ e, buildKey t [IndexVal.strV ""] = Except.error e) ∧
    (∀ (t : String) (pre post : List IndexVal) (s : String), s ≠ "" →
      buildKey t (pre ++ IndexVal.bytesV s :: post) =
        buildKey t (pre ++ IndexVal.strV s :: post)) := by
  refine ⟨?_, ?_, ?_⟩
  · intro t
    show buildKeyAux (t ++ (delimS ++ "")) [] = Except.ok (t ++ delimS)
    unfold buildKeyAux
    congr 1
  · intro t
    exact ⟨"the index key can not be empty string", rfl⟩
  · intro t pre post s hs
    apply buildKeyAux_congr_mid
    show Except.ok (delimS ++ s) = renderVal (IndexVal.strV s)
    unfold renderVal
    rw [if_neg hs]

/-- Witness for C10. -/
theorem buildKey_bytes_string_witness :
    buildKey "t" ([IndexVal.intV 1] ++ IndexVal.bytesV "x" :: []) =
      buildKey "t" ([IndexVal.intV 1] ++ IndexVal.strV "x" :: []) :=
  (buildKey_bytes_string).2.2 "t" [IndexVal.intV 1] [] "x" (by decide)

/-- The delimited concatenation of a non-empty list of segments starts with
the delimiter, and of an empty list is empty. -/
theorem delimChunks_cons (s : List Char) (rest : List (List Char)) :
    delimChunks (s :: rest) = delim :: (s ++ delimChunks rest) := by
  simp [delimChunks]

/-- Whatever `delimChunks` produces either is empty or starts with the
delimiter. -/
theorem delimChunks_sd (xs : List (List Char)) :
    ∀ c, (delimChunks xs).head? = some c → c = delim := by
  cases xs with
  | nil =>
      intro c h
      simp [delimChunks] at h
  | cons s rest =>
      intro c h
      rw [delimChunks_cons] at h
      simp at h
      exact h.symm

/-- Cancellation for concatenations split by the delimiter: if two
delimiter-free prefixes are followed by suffixes that are empty or start
with the delimiter, equal concatenations force equal parts. -/
theorem append_delim_cancel :
    ∀ (x y u v : List Char), delim ∉ x → delim ∉ y →
      (∀ c, u.head? = some c → c = delim) → (∀ c, v.head? = some c → c = delim) →
      x ++ u = y ++ v → x = y ∧ u = v := by
  intro x
  induction x with
  | nil =>
      intro y u v _ hy hu _ heq
      cases y with
      | nil => exact ⟨rfl, heq⟩
      | cons b y2 =>
          exfalso
          have hue : u = b :: (y2 ++ v) := by simpa using heq
          have hb : b = delim := hu b (by rw [hue]; rfl)
          exact hy (hb ▸ List.mem_cons_self b y2)
  | cons a x2 ih =>
      intro y u v hx hy hu hv heq
      cases y with
      | nil =>
          exfalso
          have hve : v = a :: (x2 ++ u) := by simpa using heq.symm
          have ha : a = delim := hv a (by rw [hve]; rfl)
          exact hx (ha ▸ List.mem_cons_self a x2)
      | cons b y2 =>
          have heq2 : a = b ∧ x2 ++ u = y2 ++ v := by simpa using heq
          obtain ⟨hab, heq3⟩ := heq2
          obtain ⟨h1, h2⟩ := ih y2 u v (fun hm => hx (List.mem_cons_of_mem _ hm))
            (fun hm => hy (List.mem_cons_of_mem _ hm)) hu hv heq3
          exact ⟨by rw [hab, h1], h2⟩

/-- `delimChunks` is injective on delimiter-free segments. -/
theorem delimChunks_inj :
    ∀ xs ys : List (List Char), (∀ s ∈ xs, delim ∉ s) → (∀ s ∈ ys, delim ∉ s) →
      delimChunks xs = delimChunks ys → xs = ys := by
  intro xs
  induction xs with
  | nil =>
      intro ys _ _ h
      cases ys with
      | nil => rfl
      | cons t yr =>
          exfalso
          rw [show delimChunks [] = [] from rfl, delimChunks_cons] at h
          cases h
  | cons s xr ih =>
      intro ys hx hy h
      cases ys with
      | nil =>
          exfalso
          rw [show delimChunks [] = [] from rfl, delimChunks_cons] at h
          cases h
      | cons t yr =>
          rw [delimChunks_cons, delimChunks_cons] at h
          have h2 : s ++ delimChunks xr = t ++ delimChunks yr := by simpa using h
          obtain ⟨hst, hrest⟩ := append_delim_cancel s t _ _ (hx s (by simp))
            (hy t (by simp)) (delimChunks_sd xr) (delimChunks_sd yr) h2
          rw [hst, ih yr (fun u hu => hx u (by simp [hu]))
            (fun u hu => hy u (by simp [hu])) hrest]

/-- On non-empty string index values the key build succeeds and produces the
table name followed by the delimited concatenation of the values. -/
theorem buildKeyAux_strings (xs : List String) :
    ∀ acc : String, (∀ s ∈ xs, s ≠ "") →
      buildKeyAux acc (xs.map IndexVal.strV) =
        Except.ok (String.mk (acc.data ++ delimChunks (xs.map String.data))) := by
  induction xs with
  | nil =>
      intro acc _
      show Except.ok acc = _
      rw [show delimChunks (List.map String.data ([] : List String)) = [] from rfl,
        List.append_nil]
  | cons s rest ih =>
      intro acc hne
      show buildKeyAux acc (IndexVal.strV s :: rest.map IndexVal.strV) = _
      unfold buildKeyAux
      rw [show renderVal (IndexVal.strV s) = Except.ok (delimS ++ s) from by
        unfold renderVal
        rw [if_neg (hne s (by simp))]]
      show buildKeyAux (acc ++ (delimS ++ s)) (rest.map IndexVal.strV) = _
      rw [ih (acc ++ (delimS ++ s)) (fun u hu => hne u (by simp [hu]))]
      congr 1
      apply String.ext
      show (acc ++ (delimS ++ s)).data ++ delimChunks (rest.map String.data) = _
      rw [String.data_append, String.data_append]
      rw [show delimS.data = [delim] from rfl]
      rw [show (s :: rest).map String.data = s.data :: rest.map String.data from rfl]
      rw [delimChunks_cons]
      simp [List.append_assoc]

/-- C8 counterexample: a string index value containing the delimiter byte
collides with a pair of distinct values, so `buildKey` is not injective on
tuple identity for all non-empty text tuples. -/
theorem buildKey_collision_counterexample :
    buildKey "t" [IndexVal.strV "a\x60b"] =
        buildKey "t" [IndexVal.strV "a", IndexVal.strV "b"] ∧
      [IndexVal.strV "a\x60b"] ≠ [IndexVal.strV "a", IndexVal.strV "b"] := by
  constructor
  · rfl
  · decide

/-- C8 (amended): `buildKey` is deterministic, and on tuples of non-empty
text values that do not contain the delimiter byte it is injective on tuple
identity (for a fixed table identifier); tuples containing the delimiter may
collide. -/
theorem buildKey_det_inj (t : String) (xs ys : List String)
    (hx : ∀ s ∈ xs, s ≠ "" ∧ delim ∉ s.data)
    (hy : ∀ s ∈ ys, s ≠ "" ∧ delim ∉ s.data) :
    (xs = ys → buildKey t (xs.map IndexVal.strV) = buildKey t (ys.map IndexVal.strV)) ∧
    (buildKey t (xs.map IndexVal.strV) = buildKey t (ys.map IndexVal.strV) →
      xs = ys) := by
  constructor
  · intro h
    rw [h]
  · intro h
    rw [show buildKey t (xs.map IndexVal.strV) = buildKeyAux t (xs.map IndexVal.strV)
      from rfl] at h
    rw [show buildKey t (ys.map IndexVal.strV) = buildKeyAux t (ys.map IndexVal.strV)
      from rfl] at h
    rw [buildKeyAux_strings xs t (fun s hs => (hx s hs).1),
      buildKeyAux_strings ys t (fun s hs => (hy s hs).1)] at h
    have h3 : String.mk (t.data ++ delimChunks (xs.map String.data)) =
        String.mk (t.data ++ delimChunks (ys.map String.data)) := Except.ok.inj h
    have h4 : t.data ++ delimChunks (xs.map String.data) =
        t.data ++ delimChunks (ys.map String.data) := congrArg String.data h3
    have h5 := List.append_cancel_left h4
    have h6 : xs.map String.data = ys.map String.data :=
      delimChunks_inj _ _
        (fun u hu => by
          obtain ⟨s, hs, rfl⟩ := List.mem_map.1 hu
          exact (hx s hs).2)
        (fun u hu => by
          obtain ⟨s, hs, rfl⟩ := List.mem_map.1 hu
          exact (hy s hs).2)
        h5
    have hinj : Function.Injective String.data := fun a b hab => by
      cases a
      cases b
      cases hab
      rfl
    exact List.map_injective_iff.2 hinj h6

/-- Witness for C8 (amended). -/
theorem buildKey_det_inj_witness :
    ((["ab"] : List String) = ["c"] →
      buildKey "t" (["ab"].map IndexVal.strV) = buildKey "t" (["c"].map IndexVal.strV)) ∧
    (buildKey "t" (["ab"].map IndexVal.strV) = buildKey "t" (["c"].map IndexVal.strV) →
      (["ab"] : List String) = ["c"]) :=
  buildKey_det_inj "t" ["ab"] ["c"]
    (by
      intro s hs
      rcases List.mem_singleton.1 hs with rfl
      exact ⟨by decide, by decide⟩)
    (by
      intro s hs
      rcases List.mem_singleton.1 hs with rfl
      exact ⟨by decide, by decide⟩)

/-! ## Claim theorems: the decoder -/

/-- C1 counterexample: the signed source value -1 is non-zero, yet decoding
it into a boolean field yields `false` (the converter tests `> 0`, not
non-zero), refuting the claim that a negative signed source yields `true`. -/
theorem integerConverter_negative_bool_counterexample :
    integerConverter (FieldVal.fBool false) (IntVal.i64 (-1)) false =
        Except.ok (FieldVal.fBool false) ∧ (-1 : Int) ≠ 0 := by
  constructor
  · rfl
  · decide

/-- C1 (amended): decoding an integer-family source into a boolean field sets
the field to `true` exactly when the value is strictly positive in its own
signedness: for unsigned sources this coincides with being non-zero, but a
negative signed source yields `false`. -/
theorem integerConverter_bool_positive :
    (∀ (b : Bool) (i : Int), integerConverter (FieldVal.fBool b) (IntVal.i64 i) false =
      Except.ok (FieldVal.fBool (decide (0 < i)))) ∧
    (∀ (b : Bool) (u : Nat), integerConverter (FieldVal.fBool b) (IntVal.u64 u) true =
      Except.ok (FieldVal.fBool (decide (u ≠ 0)))) := by
  constructor
  · intro b i
    rfl
  · intro b u
    show Except.ok (FieldVal.fBool (decide (0 < u))) = _
    congr 2
    rw [decide_eq_decide]
    omega

/-- First index of the separator in a comma-free prefix followed by a comma. -/
theorem indexByte_append (pre post : List Char) (h : ',' ∉ pre) :
    indexByte (pre ++ ',' :: post) ',' = some pre.length := by
  induction pre with
  | nil => simp [indexByte]
  | cons a rest ih =>
      have ha : a ≠ ',' := fun he => h (he ▸ List.mem_cons_self a rest)
      show indexByte (a :: (rest ++ ',' :: post)) ',' = some (rest.length + 1)
      unfold indexByte
      rw [if_neg ha]
      rw [ih (fun hm => h (List.mem_cons_of_mem _ hm))]
      rfl

/-- C2 counterexample: for the tag value "x,name" the decoder's lookup name
is "x" (the segment before the comma), not "name" (the remainder), refuting
the claim that a non-"pk" first segment is stripped in favour of the
remainder. -/
theorem tagLookupName_counterexample :
    tagLookupName "x,name" = "x" ∧ ("x" : String) ≠ "name" := by
  constructor
  · rfl
  · decide

/-- C2 (amended): for a tag value with a comma whose first segment is
comma-free and differs from "pk", the decoder drops the comma and everything
after it, using the first segment as the external lookup name (only a "pk"
first segment keeps the remainder instead). -/
theorem tagLookupName_amended (pre post : List Char) (h1 : ',' ∉ pre)
    (h2 : pre ≠ ['p', 'k']) :
    tagLookupNameL (pre ++ ',' :: post) = pre := by
  unfold tagLookupNameL
  rw [indexByte_append pre post h1]
  show (if List.take pre.length (pre ++ ',' :: post) = ['p', 'k'] then
      List.drop (pre.length + 1) (pre ++ ',' :: post)
    else List.take pre.length (pre ++ ',' :: post)) = pre
  rw [List.take_left, if_neg h2]

/-- Witness for C2 (amended). -/
theorem tagLookupName_amended_witness :
    tagLookupNameL ("x".data ++ ',' :: "name".data) = "x".data :=
  tagLookupName_amended "x".data "name".data (by decide) (by decide)

/-- C9: a struct field whose tag lookup failed is never touched by
`ScanStruct`, whatever the raw data (even if it holds an entry under the
field's plain name) and whatever the scalar converter does. -/
theorem scanStruct_untagged_frame {α : Type} (scanFn : FieldVal → α → Except String FieldVal)
    (structName : String) (data : List (String × α)) :
    ∀ (fields : List (StructField α)) (i : Nat) (f : StructField α),
      fields.get? i = some f → f.tag = none →
      (ScanStruct scanFn structName data fields).2.get? i = some f := by
  intro fields
  induction fields with
  | nil =>
      intro i f h _
      simp at h
  | cons f0 rest ih =>
      intro i f hf ht
      cases i with
      | zero =>
          have hf0 : f0 = f := by simpa using hf
          subst hf0
          have hpf : processField scanFn structName data f0 = Except.ok f0 := by
            unfold processField
            rw [ht]
          show (ScanStruct scanFn structName data (f0 :: rest)).2.get? 0 = some f0
          unfold ScanStruct
          rw [hpf]
          cases hrest : ScanStruct scanFn structName data rest with
          | mk e rest2 => rfl
      | succ n =>
          have hfr : rest.get? n = some f := by simpa using hf
          show (ScanStruct scanFn structName data (f0 :: rest)).2.get? (n + 1) = some f
          unfold ScanStruct
          cases hpf : processField scanFn structName data f0 with
          | ok f2 =>
              cases hrest : ScanStruct scanFn structName data rest with
              | mk e rest2 =>
                  have h2 := ih n f hfr ht
                  rw [hrest] at h2
                  simpa using h2
          | error e => simpa using hfr

/-- Witness for C9 on a concrete untagged field with matching raw data. -/
theorem scanStruct_untagged_frame_witness :
    (ScanStruct (fun v _ => Except.ok v) "S" [("F", (3 : Nat))]
        [⟨"F", none, true, none, FieldVal.fInt 0⟩]).2.get? 0 =
      some ⟨"F", none, true, none, FieldVal.fInt 0⟩ :=
  scanStruct_untagged_frame (fun v _ => Except.ok v) "S" [("F", (3 : Nat))]
    [⟨"F", none, true, none, FieldVal.fInt 0⟩] 0
    ⟨"F", none, true, none, FieldVal.fInt 0⟩ rfl rfl

/-- The row loop on all-successful rows accumulates the decoded objects in
input order. -/
theorem scanRows_all_ok {α : Type} (scanFn : FieldVal → α → Except String FieldVal)
    (structName : String) (template : List (StructField α))
    (container : List (List (StructField α))) :
    ∀ (rows : List (List (String × α))) (acc : List (List (StructField α))),
      (∀ r ∈ rows, (ScanStruct scanFn structName r template).1 = none) →
      scanRows scanFn structName template container rows acc =
        (none, acc ++ rows.map (fun r => (ScanStruct scanFn structName r template).2)) := by
  intro rows
  induction rows with
  | nil =>
      intro acc _
      simp [scanRows]
  | cons r rest ih =>
      intro acc hok
      have h1 : (ScanStruct scanFn structName r template).1 = none := hok r (by simp)
      show scanRows scanFn structName template container (r :: rest) acc = _
      unfold scanRows
      cases hsc : ScanStruct scanFn structName r template with
      | mk e fs =>
          rw [hsc] at h1
          simp only at h1
          subst h1
          show scanRows scanFn structName template container rest (acc ++ [fs]) =
            (none, acc ++ List.map (fun r => (ScanStruct scanFn structName r template).2)
              (r :: rest))
          rw [ih (acc ++ [fs]) (fun r2 hr2 => hok r2 (by simp [hr2]))]
          rw [List.append_assoc]
          rw [List.map_cons, hsc]
          rfl

/-- The row loop aborts on the first failing row, returning its error and the
caller's container. -/
theorem scanRows_first_error {α : Type} (scanFn : FieldVal → α → Except String FieldVal)
    (structName : String) (template : List (StructField α))
    (container : List (List (StructField α))) :
    ∀ (pre : List (List (String × α))) (r : List (String × α))
      (post : List (List (String × α))) (e : String) (acc : List (List (StructField α))),
      (∀ r2 ∈ pre, (ScanStruct scanFn structName r2 template).1 = none) →
      (ScanStruct scanFn structName r template).1 = some e →
      scanRows scanFn structName template container (pre ++ r :: post) acc =
        (some e, container) := by
  intro pre
  induction pre with
  | nil =>
      intro r post e acc _ herr
      show scanRows scanFn structName template container (r :: post) acc = _
      unfold scanRows
      cases hsc : ScanStruct scanFn structName r template with
      | mk e2 fs =>
          rw [hsc] at herr
          simp only at herr
          subst herr
          rfl
  | cons r0 rest ih =>
      intro r post e acc hok herr
      have h1 : (ScanStruct scanFn structName r0 template).1 = none := hok r0 (by simp)
      show scanRows scanFn structName template container (r0 :: (rest ++ r :: post)) acc = _
      unfold scanRows
      cases hsc : ScanStruct scanFn structName r0 template with
      | mk e2 fs =>
          rw [hsc] at h1
          simp only at h1
          subst h1
          exact ih r post e (acc ++ [fs]) (fun r2 hr2 => hok r2 (by simp [hr2])) herr

/-- C6: on a settable target, if every row decodes successfully the batch
decoder fills the container with one decoded object per row in input order;
if any row fails (the first failure being row `r` with error `e`), the batch
returns exactly that error and the caller's container is left unchanged. -/
theorem scanStructSlice_batch {α : Type} (scanFn : FieldVal → α → Except String FieldVal)
    (structName : String) (rows : List (List (String × α)))
    (template : List (StructField α)) (container : List (List (StructField α))) :
    ((∀ r ∈ rows, (ScanStruct scanFn structName r template).1 = none) →
      ScanStructSlice scanFn structName rows template container true =
        (none, rows.map (fun r => (ScanStruct scanFn structName r template).2))) ∧
    (∀ (pre : List (List (String × α))) (r : List (String × α))
      (post : List (List (String × α))) (e : String),
      rows = pre ++ r :: post →
      (∀ r2 ∈ pre, (ScanStruct scanFn structName r2 template).1 = none) →
      (ScanStruct scanFn structName r template).1 = some e →
      ScanStructSlice scanFn structName rows template container true =
        (some e, container)) := by
  constructor
  · intro hok
    show scanRows scanFn structName template container rows [] = _
    rw [scanRows_all_ok scanFn structName template container rows [] hok]
    rw [List.nil_append]
  · intro pre r post e hrows hok herr
    show scanRows scanFn structName template container rows [] = _
    rw [hrows]
    exact scanRows_first_error scanFn structName template container pre r post e [] hok herr

/-- Witness for C6 on a concrete settable one-row batch. -/
theorem scanStructSlice_batch_witness :
    ScanStructSlice (fun v _ => Except.ok v) "S" [[("a", (1 : Nat))]] [] [] true =
      (none, [[]]) :=
  (scanStructSlice_batch (fun v _ => Except.ok v) "S" [[("a", (1 : Nat))]] [] []).1
    (by
      intro r hr
      rcases List.mem_singleton.1 hr with rfl
      rfl)
